import Mathlib

/-!
Verification of the electrostatic field simulator
(`ElectrostaticField` / `Charge` in `PythonApplication2.py` and `code.py`).

The numeric model is exact real arithmetic (the idealization of the
double-precision floating point used by the source).  Python objects are
shallowly embedded: `Charge` and `ElectrostaticField` become structures,
the `for` loops of `calculate_field`, `calculate_potential` and
`calculate_field_grid` become `List.foldl` / `List.map` over the same data
in the same order, and `np.linspace` / `np.meshgrid` are translated by
their documented semantics.  Versions that thread the engine object
through the loop (`calculate_field_st`, ...) make the absence of state
mutation provable.
-/

namespace Electrostatics

noncomputable section

/-- Coulomb constant, exactly the decimal literal of the source
(`k = 8.9875517923e9`). -/
def k : ℝ := 8.9875517923e9

/-- A point charge: magnitude `q` in Coulomb and a 2D `pos`
(translated from `class Charge`). -/
structure Charge where
  q : ℝ
  pos : ℝ × ℝ

/-- Euclidean norm of a 2D vector, `np.linalg.norm` on a length-2 array. -/
def norm2 (v : ℝ × ℝ) : ℝ := Real.sqrt (v.1 ^ 2 + v.2 ^ 2)

/-- Translation of `ElectrostaticField.calculate_field`: fold the loop body
over the charge list, starting from `np.zeros(2)`; a charge closer than
0.1 to the point is skipped (`continue`), otherwise
`E = k * q * r / r_magnitude**3` is accumulated componentwise. -/
def calculate_field (charges : List Charge) (point : ℝ × ℝ) : ℝ × ℝ :=
  charges.foldl (fun E_total charge =>
    let r : ℝ × ℝ := (point.1 - charge.pos.1, point.2 - charge.pos.2)
    let r_magnitude : ℝ := norm2 r
    if r_magnitude < 0.1 then E_total
    else (E_total.1 + k * charge.q * r.1 / r_magnitude ^ 3,
          E_total.2 + k * charge.q * r.2 / r_magnitude ^ 3)) (0, 0)

/-- Translation of `ElectrostaticField.calculate_potential`: fold the loop
body over the charge list starting from `V_total = 0`; a charge closer
than 0.1 is skipped, otherwise `V = k * q / r` is accumulated. -/
def calculate_potential (charges : List Charge) (point : ℝ × ℝ) : ℝ :=
  charges.foldl (fun V_total charge =>
    let r : ℝ := norm2 (point.1 - charge.pos.1, point.2 - charge.pos.2)
    if r < 0.1 then V_total
    else V_total + k * charge.q / r) 0

/-- The single-charge Coulomb field term of the contract: zero below the
proximity threshold, `k·q·(point − pos)/|point − pos|³` otherwise. -/
def fieldContrib (point : ℝ × ℝ) (c : Charge) : ℝ × ℝ :=
  let r : ℝ × ℝ := (point.1 - c.pos.1, point.2 - c.pos.2)
  let m : ℝ := norm2 r
  if m < 0.1 then (0, 0)
  else (k * c.q * r.1 / m ^ 3, k * c.q * r.2 / m ^ 3)

/-- The single-charge potential term of the contract: zero below the
proximity threshold, `k·q/|point − pos|` otherwise. -/
def potentialContrib (point : ℝ × ℝ) (c : Charge) : ℝ :=
  let m : ℝ := norm2 (point.1 - c.pos.1, point.2 - c.pos.2)
  if m < 0.1 then 0 else k * c.q / m

/-- One step of the `calculate_field` loop adds the contract term. -/
lemma field_step (E_total : ℝ × ℝ) (point : ℝ × ℝ) (charge : Charge) :
    (let r : ℝ × ℝ := (point.1 - charge.pos.1, point.2 - charge.pos.2)
     let r_magnitude : ℝ := norm2 r
     if r_magnitude < 0.1 then E_total
     else (E_total.1 + k * charge.q * r.1 / r_magnitude ^ 3,
           E_total.2 + k * charge.q * r.2 / r_magnitude ^ 3)) =
      E_total + fieldContrib point charge := by
  simp only [fieldContrib]
  split
  · simp
  · simp [Prod.ext_iff]

/-- One step of the `calculate_potential` loop adds the contract term. -/
lemma potential_step (V_total : ℝ) (point : ℝ × ℝ) (charge : Charge) :
    (let r : ℝ := norm2 (point.1 - charge.pos.1, point.2 - charge.pos.2)
     if r < 0.1 then V_total
     else V_total + k * charge.q / r) =
      V_total + potentialContrib point charge := by
  simp only [potentialContrib]
  split
  · simp
  · rfl

/-- Folding an additive step function is adding the mapped sum. -/
lemma foldl_add_map {α M : Type} [AddCommMonoid M] (f : α → M) :
    ∀ (l : List α) (init : M),
      l.foldl (fun acc a => acc + f a) init = init + (l.map f).sum
  | [], init => by simp
  | a :: l, init => by
      rw [List.foldl_cons, foldl_add_map f l (init + f a)]
      simp [add_assoc]

/-- `calculate_field` is the sum of the contract terms over the charges. -/
lemma calculate_field_sum (charges : List Charge) (point : ℝ × ℝ) :
    calculate_field charges point = (charges.map (fieldContrib point)).sum := by
  unfold calculate_field
  have h : ∀ init : ℝ × ℝ,
      charges.foldl (fun E_total charge =>
        let r : ℝ × ℝ := (point.1 - charge.pos.1, point.2 - charge.pos.2)
        let r_magnitude : ℝ := norm2 r
        if r_magnitude < 0.1 then E_total
        else (E_total.1 + k * charge.q * r.1 / r_magnitude ^ 3,
              E_total.2 + k * charge.q * r.2 / r_magnitude ^ 3)) init =
      init + (charges.map (fieldContrib point)).sum := by
    intro init
    rw [← foldl_add_map (fieldContrib point) charges init]
    congr 1
    funext E_total charge
    exact field_step E_total point charge
  rw [h (0, 0)]
  simp

/-- `calculate_potential` is the sum of the contract terms over the charges. -/
lemma calculate_potential_sum (charges : List Charge) (point : ℝ × ℝ) :
    calculate_potential charges point =
      (charges.map (potentialContrib point)).sum := by
  unfold calculate_potential
  have h : ∀ init : ℝ,
      charges.foldl (fun V_total charge =>
        let r : ℝ := norm2 (point.1 - charge.pos.1, point.2 - charge.pos.2)
        if r < 0.1 then V_total
        else V_total + k * charge.q / r) init =
      init + (charges.map (potentialContrib point)).sum := by
    intro init
    rw [← foldl_add_map (potentialContrib point) charges init]
    congr 1
    funext V_total charge
    exact potential_step V_total point charge
  rw [h 0]
  simp

/-- Translation of `np.linspace(start, stop, num)` (endpoint mode): point
`i` is `start + i * (stop - start)/(num - 1)`.  For `num = 1` the real
division by zero yields `start`, matching the numpy output `[start]`;
`num = 0` yields the empty list. -/
def linspace (start stop : ℝ) (num : ℕ) : List ℝ :=
  (List.range num).map
    (fun (i : ℕ) => start + (i : ℝ) * ((stop - start) / ((num : ℝ) - 1)))

/-- Translation of `class ElectrostaticField`: the charge list and the two
grid parameters of `__init__` (`grid_size`, `grid_points`); the meshgrid
arrays `self.X`, `self.Y` are recovered by `Xg`, `Yg` below from the same
data `__init__` computes them from. -/
structure ElectrostaticField where
  charges : List Charge
  grid_size : ℝ
  grid_points : ℕ

/-- Construction as the Python call performs it: `np.linspace` raises a
`ValueError` when the sample count is negative, and every other input is
accepted without validation, so the constructor returns `none` exactly for
a negative `grid_points`. -/
def mkField (charges : List Charge) (grid_size : ℝ) (grid_points : ℤ) :
    Option ElectrostaticField :=
  if grid_points < 0 then none
  else some { charges := charges, grid_size := grid_size,
              grid_points := grid_points.toNat }

/-- The 1D sample axis built in `__init__`:
`np.linspace(-grid_size/2, grid_size/2, grid_points)` (both axes use it). -/
def xs (e : ElectrostaticField) : List ℝ :=
  linspace (-e.grid_size / 2) (e.grid_size / 2) e.grid_points

/-- Entry `self.X[i, j]` of the meshgrid: the `j`-th sample of the x axis
(`np.meshgrid` default indexing). -/
def Xg (e : ElectrostaticField) (_i j : ℕ) : ℝ := (xs e).getD j 0

/-- Entry `self.Y[i, j]` of the meshgrid: the `i`-th sample of the y axis. -/
def Yg (e : ElectrostaticField) (i _j : ℕ) : ℝ := (xs e).getD i 0

/-- Translation of `ElectrostaticField.calculate_field_grid`: the double
loop over `range(grid_points)` fills three `grid_points × grid_points`
arrays with the two field components and the potential at each lattice
point `[self.X[i,j], self.Y[i,j]]`. -/
def calculate_field_grid (e : ElectrostaticField) :
    List (List ℝ) × List (List ℝ) × List (List ℝ) :=
  ((List.range e.grid_points).map (fun i => (List.range e.grid_points).map
      (fun j => (calculate_field e.charges (Xg e i j, Yg e i j)).1)),
   (List.range e.grid_points).map (fun i => (List.range e.grid_points).map
      (fun j => (calculate_field e.charges (Xg e i j, Yg e i j)).2)),
   (List.range e.grid_points).map (fun i => (List.range e.grid_points).map
      (fun j => calculate_potential e.charges (Xg e i j, Yg e i j))))

/-- The default charge configuration of the source: `+1 nC` at `(-2, 0)`
and `-1 nC` at `(2, 0)`. -/
def defaultCharges : List Charge :=
  [{ q := 1e-9, pos := (-2, 0) }, { q := -1e-9, pos := (2, 0) }]

/-- The engine built by `ElectrostaticField(charges)` with the default
grid parameters `grid_size=10`, `grid_points=30`. -/
def defaultField : ElectrostaticField :=
  { charges := defaultCharges, grid_size := 10, grid_points := 30 }

/-- In-bounds entry of `linspace` is the evenly spaced sample formula. -/
lemma linspace_getD (start stop : ℝ) (num : ℕ) (i : ℕ) (hi : i < num) :
    (linspace start stop num).getD i 0 =
      start + i * ((stop - start) / ((num : ℝ) - 1)) := by
  unfold linspace
  rw [List.getD_eq_getElem _ _
      (by rw [List.length_map, List.length_range]; exact hi)]
  rw [List.getElem_map, List.getElem_range]

/-- `linspace` produces `num` samples. -/
lemma linspace_length (start stop : ℝ) (num : ℕ) :
    (linspace start stop num).length = num := by
  rw [linspace, List.length_map, List.length_range]

/-- Version of `calculate_field` with the engine object threaded through the loop:
each iteration carries the (engine, accumulator) pair, and only the
accumulator component is ever rebuilt, because no statement of the source
body assigns to `self`. -/
def calculate_field_st (e : ElectrostaticField) (point : ℝ × ℝ) :
    ElectrostaticField × (ℝ × ℝ) :=
  e.charges.foldl (fun s charge =>
    let r : ℝ × ℝ := (point.1 - charge.pos.1, point.2 - charge.pos.2)
    let r_magnitude : ℝ := norm2 r
    if r_magnitude < 0.1 then s
    else (s.1, (s.2.1 + k * charge.q * r.1 / r_magnitude ^ 3,
                s.2.2 + k * charge.q * r.2 / r_magnitude ^ 3)))
    (e, ((0 : ℝ), (0 : ℝ)))

/-- Version of `calculate_potential` with the engine object threaded
through the loop. -/
def calculate_potential_st (e : ElectrostaticField) (point : ℝ × ℝ) :
    ElectrostaticField × ℝ :=
  e.charges.foldl (fun s charge =>
    let r : ℝ := norm2 (point.1 - charge.pos.1, point.2 - charge.pos.2)
    if r < 0.1 then s
    else (s.1, s.2 + k * charge.q / r)) (e, (0 : ℝ))

/-- Version of `calculate_field_grid` with the engine object threaded
through both loops; the arrays are built row by row as the loops run. -/
def calculate_field_grid_st (e : ElectrostaticField) :
    ElectrostaticField × (List (List ℝ) × List (List ℝ) × List (List ℝ)) :=
  (List.range e.grid_points).foldl (fun s i =>
    let inner := (List.range s.1.grid_points).foldl (fun t j =>
      let p : ℝ × ℝ := (Xg t.1 i j, Yg t.1 i j)
      let fe := calculate_field_st t.1 p
      let pe := calculate_potential_st fe.1 p
      (pe.1, (t.2.1 ++ [fe.2.1], t.2.2.1 ++ [fe.2.2], t.2.2.2 ++ [pe.2])))
      (s.1, (([] : List ℝ), ([] : List ℝ), ([] : List ℝ)))
    (inner.1,
     (s.2.1 ++ [inner.2.1], s.2.2.1 ++ [inner.2.2.1],
      s.2.2.2 ++ [inner.2.2.2])))
    (e, (([] : List (List ℝ)), ([] : List (List ℝ)), ([] : List (List ℝ))))

/-- A fold whose step keeps the first component and updates the second by
a rule that may read the first splits into the untouched state and a pure
fold. -/
lemma foldl_fst_pres {σ α β : Type} (body : σ → β → α → β) :
    ∀ (l : List α) (s : σ) (b : β),
      l.foldl (fun t a => (t.1, body t.1 t.2 a)) (s, b) =
        (s, l.foldl (body s) b)
  | [], _, _ => rfl
  | a :: l, s, b => by
      rw [List.foldl_cons, List.foldl_cons]
      exact foldl_fst_pres body l s (body s b a)

/-- The threaded field loop splits into the untouched state and the pure
fold, for any starting accumulator. -/
lemma field_st_fold (point : ℝ × ℝ) :
    ∀ (l : List Charge) (s : ElectrostaticField) (E0 : ℝ × ℝ),
      l.foldl (fun s charge =>
        let r : ℝ × ℝ := (point.1 - charge.pos.1, point.2 - charge.pos.2)
        let r_magnitude : ℝ := norm2 r
        if r_magnitude < 0.1 then s
        else (s.1, (s.2.1 + k * charge.q * r.1 / r_magnitude ^ 3,
                    s.2.2 + k * charge.q * r.2 / r_magnitude ^ 3))) (s, E0) =
      (s, l.foldl (fun E_total charge =>
        let r : ℝ × ℝ := (point.1 - charge.pos.1, point.2 - charge.pos.2)
        let r_magnitude : ℝ := norm2 r
        if r_magnitude < 0.1 then E_total
        else (E_total.1 + k * charge.q * r.1 / r_magnitude ^ 3,
              E_total.2 + k * charge.q * r.2 / r_magnitude ^ 3)) E0)
  | [], _, _ => rfl
  | charge :: l, s, E0 => by
      rw [List.foldl_cons, List.foldl_cons]
      by_cases h : norm2 (point.1 - charge.pos.1, point.2 - charge.pos.2) < 0.1
      · simp only [if_pos h]
        exact field_st_fold point l s E0
      · simp only [if_neg h]
        exact field_st_fold point l s _

/-- The threaded potential loop splits into the untouched state and the
pure fold, for any starting accumulator. -/
lemma potential_st_fold (point : ℝ × ℝ) :
    ∀ (l : List Charge) (s : ElectrostaticField) (V0 : ℝ),
      l.foldl (fun s charge =>
        let r : ℝ := norm2 (point.1 - charge.pos.1, point.2 - charge.pos.2)
        if r < 0.1 then s
        else (s.1, s.2 + k * charge.q / r)) (s, V0) =
      (s, l.foldl (fun V_total charge =>
        let r : ℝ := norm2 (point.1 - charge.pos.1, point.2 - charge.pos.2)
        if r < 0.1 then V_total
        else V_total + k * charge.q / r) V0)
  | [], _, _ => rfl
  | charge :: l, s, V0 => by
      rw [List.foldl_cons, List.foldl_cons]
      by_cases h : norm2 (point.1 - charge.pos.1, point.2 - charge.pos.2) < 0.1
      · simp only [if_pos h]
        exact potential_st_fold point l s V0
      · simp only [if_neg h]
        exact potential_st_fold point l s _

/-- The state-threaded field evaluation leaves the engine unchanged and
returns the pure result. -/
lemma calculate_field_st_spec (e : ElectrostaticField) (point : ℝ × ℝ) :
    calculate_field_st e point = (e, calculate_field e.charges point) :=
  field_st_fold point e.charges e (0, 0)

/-- The state-threaded potential evaluation leaves the engine unchanged
and returns the pure result. -/
lemma calculate_potential_st_spec (e : ElectrostaticField) (point : ℝ × ℝ) :
    calculate_potential_st e point = (e, calculate_potential e.charges point) :=
  potential_st_fold point e.charges e 0

/-- The inner (column) loop of the threaded grid evaluation leaves the
engine unchanged and appends the pure row entries. -/
lemma grid_inner_fold (i : ℕ) :
    ∀ (l : List ℕ) (s0 : ElectrostaticField) (a b c : List ℝ),
      l.foldl (fun t j =>
        let p : ℝ × ℝ := (Xg t.1 i j, Yg t.1 i j)
        let fe := calculate_field_st t.1 p
        let pe := calculate_potential_st fe.1 p
        (pe.1, (t.2.1 ++ [fe.2.1], t.2.2.1 ++ [fe.2.2], t.2.2.2 ++ [pe.2])))
        (s0, (a, b, c)) =
      (s0,
       (a ++ l.map (fun j =>
          (calculate_field s0.charges (Xg s0 i j, Yg s0 i j)).1),
        b ++ l.map (fun j =>
          (calculate_field s0.charges (Xg s0 i j, Yg s0 i j)).2),
        c ++ l.map (fun j =>
          calculate_potential s0.charges (Xg s0 i j, Yg s0 i j))))
  := by
  intro l
  induction l with
  | nil => intro s0 a b c; simp
  | cons j l ih =>
      intro s0 a b c
      rw [List.foldl_cons]
      dsimp only
      rw [calculate_field_st_spec, calculate_potential_st_spec]
      dsimp only
      rw [ih]
      simp

/-- The outer (row) loop of the threaded grid evaluation leaves the
engine unchanged and appends the pure rows. -/
lemma grid_outer_fold :
    ∀ (l : List ℕ) (e : ElectrostaticField) (a b c : List (List ℝ)),
      l.foldl (fun s i =>
        let inner := (List.range s.1.grid_points).foldl (fun t j =>
          let p : ℝ × ℝ := (Xg t.1 i j, Yg t.1 i j)
          let fe := calculate_field_st t.1 p
          let pe := calculate_potential_st fe.1 p
          (pe.1, (t.2.1 ++ [fe.2.1], t.2.2.1 ++ [fe.2.2], t.2.2.2 ++ [pe.2])))
          (s.1, (([] : List ℝ), ([] : List ℝ), ([] : List ℝ)))
        (inner.1,
         (s.2.1 ++ [inner.2.1], s.2.2.1 ++ [inner.2.2.1],
          s.2.2.2 ++ [inner.2.2.2])))
        (e, (a, b, c)) =
      (e,
       (a ++ l.map (fun i => (List.range e.grid_points).map (fun j =>
          (calculate_field e.charges (Xg e i j, Yg e i j)).1)),
        b ++ l.map (fun i => (List.range e.grid_points).map (fun j =>
          (calculate_field e.charges (Xg e i j, Yg e i j)).2)),
        c ++ l.map (fun i => (List.range e.grid_points).map (fun j =>
          calculate_potential e.charges (Xg e i j, Yg e i j)))))
  := by
  intro l
  induction l with
  | nil => intro e a b c; simp
  | cons i l ih =>
      intro e a b c
      rw [List.foldl_cons]
      dsimp only
      rw [grid_inner_fold i (List.range e.grid_points) e [] [] []]
      dsimp only
      rw [ih]
      simp

/-- The state-threaded grid evaluation leaves the engine unchanged and
returns the pure result. -/
lemma calculate_field_grid_st_spec (e : ElectrostaticField) :
    calculate_field_grid_st e = (e, calculate_field_grid e) := by
  unfold calculate_field_grid_st calculate_field_grid
  rw [grid_outer_fold (List.range e.grid_points) e [] [] []]
  simp

/-- A single-charge field evaluation is exactly the contract term. -/
lemma calculate_field_singleton (c : Charge) (point : ℝ × ℝ) :
    calculate_field [c] point = fieldContrib point c := by
  rw [calculate_field_sum]
  simp

/-- A single-charge potential evaluation is exactly the contract term. -/
lemma calculate_potential_singleton (c : Charge) (point : ℝ × ℝ) :
    calculate_potential [c] point = potentialContrib point c := by
  rw [calculate_potential_sum]
  simp

/-- In-bounds `getD` over a mapped range evaluates the function. -/
lemma range_map_getD {β : Type} (n : ℕ) (f : ℕ → β) (d : β) (i : ℕ)
    (hi : i < n) :
    ((List.range n).map f).getD i d = f i := by
  rw [List.getD_eq_getElem _ _ (by rw [List.length_map, List.length_range]; exact hi)]
  rw [List.getElem_map, List.getElem_range]

/-- C1: for every point and charge list, `calculate_field` returns the
vector sum, over all charges whose distance to the point is at least the
proximity threshold 0.1, of `k·q·(point − pos)/|point − pos|³` (the term
`fieldContrib`, which is zero below the threshold and the Coulomb
contribution otherwise); equivalently the multi-charge result is the
elementwise sum of the single-charge results computed independently. -/
theorem calculate_field_superposition (charges : List Charge)
    (point : ℝ × ℝ) :
    calculate_field charges point = (charges.map (fieldContrib point)).sum ∧
    calculate_field charges point =
      (charges.map (fun c => calculate_field [c] point)).sum := by
  refine ⟨calculate_field_sum charges point, ?_⟩
  rw [calculate_field_sum]
  congr 1
  simp [calculate_field_singleton]

/-- C2: for every point and charge list, `calculate_potential` returns
the scalar sum, over all charges whose distance to the point is at least
the proximity threshold 0.1, of `k·q/|point − pos|` (the term
`potentialContrib`); and for a single charge `q` at the origin and a
point farther than 0.1 from the origin it returns `k·q/|point|`. -/
theorem calculate_potential_superposition (charges : List Charge)
    (point : ℝ × ℝ) (q : ℝ) (p2 : ℝ × ℝ) (h : 0.1 < norm2 p2) :
    calculate_potential charges point =
      (charges.map (potentialContrib point)).sum ∧
    calculate_potential [{ q := q, pos := (0, 0) }] p2 =
      k * q / norm2 p2 := by
  refine ⟨calculate_potential_sum charges point, ?_⟩
  rw [calculate_potential_singleton]
  unfold potentialContrib
  simp only [sub_zero]
  rw [if_neg (not_lt_of_gt h)]

/-- C5: in both evaluators a charge strictly closer than 0.1 to the point
contributes exactly zero (it is skipped, not clamped), a charge at
distance 0.1 or more contributes its full Coulomb term, and with exactly
one charge placed at the evaluation point the field is the zero vector
and the potential is 0; both functions are total in the real model, so no
exception, infinity or NaN arises. -/
theorem proximity_threshold_policy (c : Charge) (cs : List Charge)
    (point : ℝ × ℝ) (q : ℝ) :
    calculate_field (c :: cs) point =
      (if norm2 (point.1 - c.pos.1, point.2 - c.pos.2) < 0.1 then (0, 0)
       else (k * c.q * (point.1 - c.pos.1) /
               norm2 (point.1 - c.pos.1, point.2 - c.pos.2) ^ 3,
             k * c.q * (point.2 - c.pos.2) /
               norm2 (point.1 - c.pos.1, point.2 - c.pos.2) ^ 3)) +
        calculate_field cs point ∧
    calculate_potential (c :: cs) point =
      (if norm2 (point.1 - c.pos.1, point.2 - c.pos.2) < 0.1 then 0
       else k * c.q / norm2 (point.1 - c.pos.1, point.2 - c.pos.2)) +
        calculate_potential cs point ∧
    calculate_field [{ q := q, pos := point }] point = (0, 0) ∧
    calculate_potential [{ q := q, pos := point }] point = 0 := by
  have hzero : norm2 (point.1 - point.1, point.2 - point.2) = 0 := by
    simp [norm2]
  refine ⟨?_, ?_, ?_, ?_⟩
  · rw [calculate_field_sum, calculate_field_sum, List.map_cons, List.sum_cons]
    rfl
  · rw [calculate_potential_sum, calculate_potential_sum, List.map_cons,
        List.sum_cons]
    rfl
  · rw [calculate_field_singleton]
    unfold fieldContrib
    simp only
    rw [if_pos (by rw [hzero]; norm_num)]
  · rw [calculate_potential_singleton]
    unfold potentialContrib
    simp only
    rw [if_pos (by rw [hzero]; norm_num)]

/-- Witness for C2 at the point (1,0), one charge of 3 C at the origin. -/
theorem calculate_potential_superposition_witness :
    (0.1 : ℝ) < norm2 (1, 0) ∧
    (calculate_potential defaultCharges (-2, 3) =
       (defaultCharges.map (potentialContrib (-2, 3))).sum ∧
     calculate_potential [{ q := 3, pos := (0, 0) }] (1, 0) =
       k * 3 / norm2 (1, 0)) := by
  have h : (0.1 : ℝ) < norm2 (1, 0) := by
    rw [norm2]
    norm_num [Real.sqrt_one]
  exact ⟨h, calculate_potential_superposition defaultCharges (-2, 3) 3 (1, 0) h⟩

/-- C3: for every engine and in-range lattice indices, the three arrays
returned by `calculate_field_grid` have `grid_points` rows of
`grid_points` entries each, and the (i,j) entries are the x-component of
`calculate_field`, its y-component, and `calculate_potential`, evaluated
at the lattice point (X[i,j], Y[i,j]). -/
theorem calculate_field_grid_contract (e : ElectrostaticField) (i j : ℕ)
    (hi : i < e.grid_points) (hj : j < e.grid_points) :
    (calculate_field_grid e).1.length = e.grid_points ∧
    (calculate_field_grid e).2.1.length = e.grid_points ∧
    (calculate_field_grid e).2.2.length = e.grid_points ∧
    (∀ row ∈ (calculate_field_grid e).1, row.length = e.grid_points) ∧
    (∀ row ∈ (calculate_field_grid e).2.1, row.length = e.grid_points) ∧
    (∀ row ∈ (calculate_field_grid e).2.2, row.length = e.grid_points) ∧
    ((calculate_field_grid e).1.getD i []).getD j 0 =
      (calculate_field e.charges (Xg e i j, Yg e i j)).1 ∧
    ((calculate_field_grid e).2.1.getD i []).getD j 0 =
      (calculate_field e.charges (Xg e i j, Yg e i j)).2 ∧
    ((calculate_field_grid e).2.2.getD i []).getD j 0 =
      calculate_potential e.charges (Xg e i j, Yg e i j) := by
  unfold calculate_field_grid
  refine ⟨?_, ?_, ?_, ?_, ?_, ?_, ?_, ?_, ?_⟩
  · rw [List.length_map, List.length_range]
  · rw [List.length_map, List.length_range]
  · rw [List.length_map, List.length_range]
  · intro row hrow
    obtain ⟨a, _, rfl⟩ := List.mem_map.mp hrow
    rw [List.length_map, List.length_range]
  · intro row hrow
    obtain ⟨a, _, rfl⟩ := List.mem_map.mp hrow
    rw [List.length_map, List.length_range]
  · intro row hrow
    obtain ⟨a, _, rfl⟩ := List.mem_map.mp hrow
    rw [List.length_map, List.length_range]
  · rw [range_map_getD _ _ _ _ hi, range_map_getD _ _ _ _ hj]
  · rw [range_map_getD _ _ _ _ hi, range_map_getD _ _ _ _ hj]
  · rw [range_map_getD _ _ _ _ hi, range_map_getD _ _ _ _ hj]

/-- Witness for C3 on the default engine at grid indices (0, 1). -/
theorem calculate_field_grid_contract_witness :
    0 < defaultField.grid_points ∧ 1 < defaultField.grid_points ∧
    ((calculate_field_grid defaultField).1.length = defaultField.grid_points ∧
     (calculate_field_grid defaultField).2.1.length = defaultField.grid_points ∧
     (calculate_field_grid defaultField).2.2.length = defaultField.grid_points ∧
     (∀ row ∈ (calculate_field_grid defaultField).1,
        row.length = defaultField.grid_points) ∧
     (∀ row ∈ (calculate_field_grid defaultField).2.1,
        row.length = defaultField.grid_points) ∧
     (∀ row ∈ (calculate_field_grid defaultField).2.2,
        row.length = defaultField.grid_points) ∧
     ((calculate_field_grid defaultField).1.getD 0 []).getD 1 0 =
       (calculate_field defaultField.charges
         (Xg defaultField 0 1, Yg defaultField 0 1)).1 ∧
     ((calculate_field_grid defaultField).2.1.getD 0 []).getD 1 0 =
       (calculate_field defaultField.charges
         (Xg defaultField 0 1, Yg defaultField 0 1)).2 ∧
     ((calculate_field_grid defaultField).2.2.getD 0 []).getD 1 0 =
       calculate_potential defaultField.charges
         (Xg defaultField 0 1, Yg defaultField 0 1)) :=
  ⟨by decide, by decide,
   calculate_field_grid_contract defaultField 0 1 (by decide) (by decide)⟩

/-- C4: for an engine built from extent E and resolution n with 2 ≤ n,
the axis has n samples, starts at -E/2, ends at E/2, advances by the
constant step E/(n-1), and lattice point (i,j) is the coordinate pair
(axis[j], axis[i]); the source defaults are extent 10 and resolution 30. -/
theorem lattice_construction (cs : List Charge) (E : ℝ) (n : ℕ)
    (e : ElectrostaticField) (i j : ℕ)
    (he : e = { charges := cs, grid_size := E, grid_points := n })
    (hn : 2 ≤ n) (hi : i + 1 < n) (_hj : j < n) :
    (xs e).length = n ∧
    (xs e).getD 0 0 = -E / 2 ∧
    (xs e).getD (n - 1) 0 = E / 2 ∧
    (xs e).getD (i + 1) 0 - (xs e).getD i 0 = E / ((n : ℝ) - 1) ∧
    (Xg e i j, Yg e i j) = ((xs e).getD j 0, (xs e).getD i 0) ∧
    defaultField.grid_size = 10 ∧ defaultField.grid_points = 30 := by
  subst he
  have hxs : xs { charges := cs, grid_size := E, grid_points := n } =
      linspace (-E / 2) (E / 2) n := rfl
  have hne : ((n : ℝ) - 1) ≠ 0 := by
    have h2 : (2 : ℝ) ≤ (n : ℝ) := by exact_mod_cast hn
    intro h0
    have : (n : ℝ) = 1 := by linarith
    linarith
  refine ⟨?_, ?_, ?_, ?_, rfl, rfl, rfl⟩
  · rw [hxs, linspace_length]
  · rw [hxs, linspace_getD _ _ _ _ (by omega)]
    simp
  · rw [hxs, linspace_getD _ _ _ _ (by omega)]
    rw [Nat.cast_sub (by omega)]
    push_cast
    field_simp
    ring
  · rw [hxs, linspace_getD _ _ _ _ hi, linspace_getD _ _ _ _ (by omega)]
    push_cast
    field_simp
    ring

/-- Witness for C4 at the default parameters E = 10, n = 30, i = 3, j = 7. -/
theorem lattice_construction_witness :
    defaultField =
      { charges := defaultCharges, grid_size := 10, grid_points := 30 } ∧
    2 ≤ 30 ∧ 3 + 1 < 30 ∧ 7 < 30 ∧
    ((xs defaultField).length = 30 ∧
     (xs defaultField).getD 0 0 = -10 / 2 ∧
     (xs defaultField).getD (30 - 1) 0 = 10 / 2 ∧
     (xs defaultField).getD (3 + 1) 0 - (xs defaultField).getD 3 0 =
       10 / (((30 : ℕ) : ℝ) - 1) ∧
     (Xg defaultField 3 7, Yg defaultField 3 7) =
       ((xs defaultField).getD 7 0, (xs defaultField).getD 3 0) ∧
     defaultField.grid_size = 10 ∧ defaultField.grid_points = 30) :=
  ⟨rfl, by decide, by decide, by decide,
   lattice_construction defaultCharges 10 30 defaultField 3 7 rfl
     (by decide) (by decide) (by decide)⟩

/-- C6 counterexample: construction is not rejected for invalid
parameters: with resolution 0 (first conjunct) and with extent -1
(second conjunct) the constructor returns an engine. -/
theorem construction_not_validated :
    mkField defaultCharges 10 0 =
      some { charges := defaultCharges, grid_size := 10, grid_points := 0 } ∧
    mkField defaultCharges (-1) 30 =
      some { charges := defaultCharges, grid_size := -1, grid_points := 30 } := by
  constructor
  · rw [mkField, if_neg (by omega)]
    rfl
  · rw [mkField, if_neg (by omega)]
    rfl

/-- C6 amended: the constructor validates nothing itself; only a negative
resolution fails, because the numpy linspace call refuses a negative
sample count, while a zero resolution and any extent, non-positive ones
included, produce an engine. -/
theorem construction_acceptance (cs : List Charge) (E : ℝ) (m : ℕ) :
    mkField cs E (-((m : ℤ) + 1)) = none ∧
    mkField cs E (m : ℤ) =
      some { charges := cs, grid_size := E, grid_points := m } := by
  constructor
  · rw [mkField, if_pos (by omega)]
  · rw [mkField, if_neg (by omega)]
    norm_num

/-- An engine whose single charge sits on the (29,29) lattice corner. -/
def cornerField : ElectrostaticField :=
  { charges := [{ q := 1e-9, pos := (5, 5) }], grid_size := 10, grid_points := 30 }

/-- C7 counterexample: the lattice of `cornerField` contains a point
coincident with its charge: indices (29,29) are in range and the lattice
point there is exactly the charge position (5,5). -/
theorem lattice_meets_charge :
    29 < cornerField.grid_points ∧
    ({ q := 1e-9, pos := (5, 5) } : Charge) ∈ cornerField.charges ∧
    (Xg cornerField 29 29, Yg cornerField 29 29) =
      ({ q := 1e-9, pos := (5, 5) } : Charge).pos := by
  refine ⟨by decide, by simp [cornerField], ?_⟩
  have h : (xs cornerField).getD 29 0 = 5 := by
    rw [show xs cornerField = linspace (-(10 : ℝ) / 2) ((10 : ℝ) / 2) 30 from rfl]
    rw [linspace_getD _ _ _ _ (by omega)]
    norm_num
  show ((xs cornerField).getD 29 0, (xs cornerField).getD 29 0) = ((5 : ℝ), (5 : ℝ))
  rw [h]

/-- Entries of the default lattice axis. -/
lemma xs_default_getD (i : ℕ) (hi : i < 30) :
    (xs defaultField).getD i 0 = -5 + i * (10 / 29) := by
  rw [show xs defaultField = linspace (-(10 : ℝ) / 2) ((10 : ℝ) / 2) 30 from rfl]
  rw [linspace_getD _ _ _ _ hi]
  norm_num

/-- No entry of the default lattice axis is zero. -/
lemma xs_default_ne_zero (i : ℕ) (hi : i < 30) :
    (xs defaultField).getD i 0 ≠ 0 := by
  rw [xs_default_getD i hi]
  interval_cases i <;> norm_num

/-- C7 amended: the invariant does not hold of every engine (see the
counterexample), but it does hold of the default configuration: no point
of the default lattice coincides with either default charge, because both
charges have y-coordinate 0 and no axis sample is 0. -/
theorem default_lattice_avoids_charges (i j : ℕ)
    (hi : i < 30) (_hj : j < 30) :
    ∀ c ∈ defaultField.charges,
      (Xg defaultField i j, Yg defaultField i j) ≠ c.pos := by
  intro c hc hpair
  have hy : Yg defaultField i j = c.pos.2 := congrArg Prod.snd hpair
  have hzero : c.pos.2 = 0 := by
    rcases List.mem_cons.mp hc with h | h
    · rw [h]
    · rcases List.mem_cons.mp h with h2 | h2
      · rw [h2]
      · simp at h2
  exact xs_default_ne_zero i hi (by rw [show Yg defaultField i j =
    (xs defaultField).getD i 0 from rfl] at hy; rw [hy, hzero])

/-- Witness for C7 amended at indices (0, 0). -/
theorem default_lattice_avoids_charges_witness :
    0 < 30 ∧
    ∀ c ∈ defaultField.charges,
      (Xg defaultField 0 0, Yg defaultField 0 0) ≠ c.pos :=
  ⟨by decide, default_lattice_avoids_charges 0 0 (by decide) (by decide)⟩

/-- C8: the evaluators are pure and deterministic: threading the engine
object through each loop returns the engine unchanged together with the
value that the pure function of (charges, point) and the grid parameters
computes, and a second invocation on the state returned by the first
yields the same value. -/
theorem evaluators_pure (e : ElectrostaticField) (point : ℝ × ℝ) :
    calculate_field_st e point = (e, calculate_field e.charges point) ∧
    calculate_potential_st e point = (e, calculate_potential e.charges point) ∧
    calculate_field_grid_st e = (e, calculate_field_grid e) ∧
    (calculate_field_st (calculate_field_st e point).1 point).2 =
      (calculate_field_st e point).2 ∧
    (calculate_potential_st (calculate_potential_st e point).1 point).2 =
      (calculate_potential_st e point).2 ∧
    (calculate_field_grid_st (calculate_field_grid_st e).1).2 =
      (calculate_field_grid_st e).2 := by
  refine ⟨calculate_field_st_spec e point, calculate_potential_st_spec e point,
    calculate_field_grid_st_spec e, ?_, ?_, ?_⟩
  · simp [calculate_field_st_spec]
  · simp [calculate_potential_st_spec]
  · simp [calculate_field_grid_st_spec]

/-- C9: rebinding the magnitude of the first charge (as the slider update
does) to a different value changes the entry of the potential array at
every in-range lattice point farther than the proximity threshold from
all charges, and setting it to the same magnitude leaves the whole grid
triple unchanged. -/
theorem mutation_changes_potential (e : ElectrostaticField) (c0 : Charge)
    (rest : List Charge) (qnew : ℝ) (i j : ℕ)
    (hcs : e.charges = c0 :: rest)
    (hi : i < e.grid_points) (hj : j < e.grid_points)
    (hfar : ∀ c ∈ e.charges,
      0.1 < norm2 (Xg e i j - c.pos.1, Yg e i j - c.pos.2))
    (hq : qnew ≠ c0.q) :
    ((calculate_field_grid
        { e with
          charges := e.charges.set 0 { q := qnew, pos := c0.pos } }).2.2.getD
        i []).getD j 0 ≠
      ((calculate_field_grid e).2.2.getD i []).getD j 0 ∧
    calculate_field_grid
        { e with charges := e.charges.set 0 { q := c0.q, pos := c0.pos } } =
      calculate_field_grid e := by
  obtain ⟨cs, gs, gp⟩ := e
  dsimp only at hcs hfar hi hj ⊢
  subst hcs
  refine ⟨?_, rfl⟩
  unfold calculate_field_grid
  dsimp only
  rw [range_map_getD _ _ _ _ hi, range_map_getD _ _ _ _ hj,
      range_map_getD _ _ _ _ hi, range_map_getD _ _ _ _ hj]
  dsimp only [List.set]
  rw [show (Xg { charges := { q := qnew, pos := c0.pos } :: rest,
                 grid_size := gs, grid_points := gp } i j,
            Yg { charges := { q := qnew, pos := c0.pos } :: rest,
                 grid_size := gs, grid_points := gp } i j) =
           (Xg { charges := c0 :: rest, grid_size := gs, grid_points := gp } i j,
            Yg { charges := c0 :: rest, grid_size := gs, grid_points := gp } i j)
      from rfl]
  have hd : 0.1 < norm2
      ((Xg ⟨c0 :: rest, gs, gp⟩ i j) - c0.pos.1,
       (Yg ⟨c0 :: rest, gs, gp⟩ i j) - c0.pos.2) :=
    hfar c0 (List.mem_cons_self c0 rest)
  rw [calculate_potential_sum, calculate_potential_sum]
  rw [List.map_cons, List.map_cons, List.sum_cons, List.sum_cons]
  intro heq
  have hcancel := add_right_cancel heq
  unfold potentialContrib at hcancel
  dsimp only at hcancel
  rw [if_neg (not_lt_of_gt hd), if_neg (not_lt_of_gt hd)] at hcancel
  have hdne : norm2
      ((Xg ⟨c0 :: rest, gs, gp⟩ i j) - c0.pos.1,
       (Yg ⟨c0 :: rest, gs, gp⟩ i j) - c0.pos.2) ≠ 0 :=
    ne_of_gt (lt_trans (by norm_num) hd)
  have hk : k ≠ 0 := by rw [k]; norm_num
  rw [div_eq_div_iff hdne hdne] at hcancel
  exact hq (mul_left_cancel₀ hk (mul_right_cancel₀ hdne hcancel))

/-- A small engine used by the C9 witness: one charge at the origin and a
2×2 lattice of extent 10 (samples at -5 and 5). -/
def witnessField : ElectrostaticField :=
  { charges := [{ q := 1e-9, pos := (0, 0) }], grid_size := 10, grid_points := 2 }

/-- The (0,0) lattice point of `witnessField` is (-5, -5). -/
lemma witnessField_corner : (xs witnessField).getD 0 0 = -5 := by
  rw [show xs witnessField = linspace (-(10 : ℝ) / 2) ((10 : ℝ) / 2) 2 from rfl,
      linspace_getD _ _ _ _ (by omega)]
  norm_num

/-- Witness for C9 on `witnessField`, doubling the charge magnitude. -/
theorem mutation_changes_potential_witness :
    witnessField.charges = { q := 1e-9, pos := ((0 : ℝ), (0 : ℝ)) } :: [] ∧
    0 < witnessField.grid_points ∧
    (∀ c ∈ witnessField.charges,
      0.1 < norm2 (Xg witnessField 0 0 - c.pos.1,
                   Yg witnessField 0 0 - c.pos.2)) ∧
    (2e-9 : ℝ) ≠ ({ q := 1e-9, pos := ((0 : ℝ), (0 : ℝ)) } : Charge).q ∧
    (((calculate_field_grid
        { witnessField with
          charges := witnessField.charges.set 0
            { q := 2e-9,
              pos := ({ q := 1e-9, pos := ((0 : ℝ), (0 : ℝ)) } : Charge).pos } }).2.2.getD
        0 []).getD 0 0 ≠
      ((calculate_field_grid witnessField).2.2.getD 0 []).getD 0 0 ∧
     calculate_field_grid
        { witnessField with
          charges := witnessField.charges.set 0
            { q := ({ q := 1e-9, pos := ((0 : ℝ), (0 : ℝ)) } : Charge).q,
              pos := ({ q := 1e-9, pos := ((0 : ℝ), (0 : ℝ)) } : Charge).pos } } =
      calculate_field_grid witnessField) := by
  have hfar : ∀ c ∈ witnessField.charges,
      0.1 < norm2 (Xg witnessField 0 0 - c.pos.1,
                   Yg witnessField 0 0 - c.pos.2) := by
    intro c hc
    have hc2 : c = { q := 1e-9, pos := ((0 : ℝ), (0 : ℝ)) } := by
      simpa [witnessField] using hc
    subst hc2
    show 0.1 < norm2 ((xs witnessField).getD 0 0 - 0,
                      (xs witnessField).getD 0 0 - 0)
    rw [witnessField_corner, norm2]
    norm_num
    exact (Real.lt_sqrt (by norm_num)).mpr (by norm_num)
  have hq : (2e-9 : ℝ) ≠ ({ q := 1e-9, pos := ((0 : ℝ), (0 : ℝ)) } : Charge).q := by
    show (2e-9 : ℝ) ≠ 1e-9
    norm_num
  exact ⟨rfl, by decide, hfar, hq,
    mutation_changes_potential witnessField
      { q := 1e-9, pos := ((0 : ℝ), (0 : ℝ)) } [] 2e-9 0 0 rfl
      (by decide) (by decide) hfar hq⟩

/-- C10: with an empty charge list, `calculate_field` returns the zero
vector and `calculate_potential` returns 0 at every point. -/
theorem empty_configuration_zero (point : ℝ × ℝ) :
    calculate_field [] point = (0, 0) ∧ calculate_potential [] point = 0 :=
  ⟨rfl, rfl⟩

end

end Electrostatics
